import Mathlib

set_option maxHeartbeats 1000000

/-
Shallow embedding of the orientation-matching engine of
py4DSTEM/process/diffraction/crystal.py (class Crystal).

Modelling conventions:
* numpy float arithmetic is modelled as exact arithmetic in a linear ordered
  field (every machine float is a rational number, so rational inputs cover
  all machine states; theorems are stated over a generic field where the
  exact values are irrational);
* transcendental functions (sin, arccos, sqrt, and the cos/sin of computed
  angles) are carried as explicit function parameters of the model, or are
  characterized in theorem hypotheses by the algebraic identities that the
  true functions satisfy at the evaluated arguments;
* comparisons of euclidean norms are carried on squared norms
  (for 0 ≤ t, ‖g‖ ≤ t ↔ ‖g‖² ≤ t²), so the model stays computable.
-/

/-- A 3-vector, modelling a numpy length-3 float array. -/
structure Vec3 (K : Type) where
  x : K
  y : K
  z : K
deriving DecidableEq

/-- Dot product of two 3-vectors (`np.sum(a * b)`). -/
def Vec3.dot {K : Type} [CommRing K] (a b : Vec3 K) : K :=
  a.x * b.x + a.y * b.y + a.z * b.z

/-- Squared euclidean norm (`np.linalg.norm(a)**2`). -/
def Vec3.normSq {K : Type} [CommRing K] (a : Vec3 K) : K := a.dot a

/-- Componentwise sum. -/
def Vec3.add {K : Type} [CommRing K] (a b : Vec3 K) : Vec3 K :=
  ⟨a.x + b.x, a.y + b.y, a.z + b.z⟩

/-- Componentwise difference. -/
def Vec3.sub {K : Type} [CommRing K] (a b : Vec3 K) : Vec3 K :=
  ⟨a.x - b.x, a.y - b.y, a.z - b.z⟩

/-- Scalar multiple. -/
def Vec3.smul {K : Type} [CommRing K] (c : K) (a : Vec3 K) : Vec3 K :=
  ⟨c * a.x, c * a.y, c * a.z⟩

/-- The zero vector (`np.zeros(3)`). -/
def Vec3.zero {K : Type} [CommRing K] : Vec3 K := ⟨0, 0, 0⟩

/-- A row-major 3×3 matrix, modelling a numpy (3,3) float array. -/
structure Mat3 (K : Type) where
  a11 : K
  a12 : K
  a13 : K
  a21 : K
  a22 : K
  a23 : K
  a31 : K
  a32 : K
  a33 : K
deriving DecidableEq

namespace Mat3

/-- First row. -/
def row1 {K : Type} (A : Mat3 K) : Vec3 K := ⟨A.a11, A.a12, A.a13⟩

/-- Second row. -/
def row2 {K : Type} (A : Mat3 K) : Vec3 K := ⟨A.a21, A.a22, A.a23⟩

/-- Third row. -/
def row3 {K : Type} (A : Mat3 K) : Vec3 K := ⟨A.a31, A.a32, A.a33⟩

/-- Third column of a matrix (the zone axis of an orientation matrix). -/
def col3 {K : Type} (A : Mat3 K) : Vec3 K := ⟨A.a13, A.a23, A.a33⟩

/-- Matrix-matrix product (`A @ B`). -/
def mulM {K : Type} [CommRing K] (A B : Mat3 K) : Mat3 K :=
  ⟨A.a11*B.a11 + A.a12*B.a21 + A.a13*B.a31,
   A.a11*B.a12 + A.a12*B.a22 + A.a13*B.a32,
   A.a11*B.a13 + A.a12*B.a23 + A.a13*B.a33,
   A.a21*B.a11 + A.a22*B.a21 + A.a23*B.a31,
   A.a21*B.a12 + A.a22*B.a22 + A.a23*B.a32,
   A.a21*B.a13 + A.a22*B.a23 + A.a23*B.a33,
   A.a31*B.a11 + A.a32*B.a21 + A.a33*B.a31,
   A.a31*B.a12 + A.a32*B.a22 + A.a33*B.a32,
   A.a31*B.a13 + A.a32*B.a23 + A.a33*B.a33⟩

/-- Matrix-vector product (`A @ v`). -/
def mulVec {K : Type} [CommRing K] (A : Mat3 K) (v : Vec3 K) : Vec3 K :=
  ⟨A.row1.dot v, A.row2.dot v, A.row3.dot v⟩

/-- Scalar multiple of a matrix. -/
def smulM {K : Type} [CommRing K] (c : K) (A : Mat3 K) : Mat3 K :=
  ⟨c*A.a11, c*A.a12, c*A.a13, c*A.a21, c*A.a22, c*A.a23, c*A.a31, c*A.a32, c*A.a33⟩

/-- Componentwise matrix sum. -/
def addM {K : Type} [CommRing K] (A B : Mat3 K) : Mat3 K :=
  ⟨A.a11+B.a11, A.a12+B.a12, A.a13+B.a13,
   A.a21+B.a21, A.a22+B.a22, A.a23+B.a23,
   A.a31+B.a31, A.a32+B.a32, A.a33+B.a33⟩

/-- Determinant of a 3×3 matrix. -/
def det {K : Type} [CommRing K] (A : Mat3 K) : K :=
  A.a11*(A.a22*A.a33 - A.a23*A.a32)
  - A.a12*(A.a21*A.a33 - A.a23*A.a31)
  + A.a13*(A.a21*A.a32 - A.a22*A.a31)

/-- Exact inverse of a 3×3 matrix via the adjugate, modelling
`np.linalg.inv` on an invertible matrix. -/
def inv3 {K : Type} [Field K] (A : Mat3 K) : Mat3 K :=
  smulM (A.det)⁻¹
    ⟨A.a22*A.a33 - A.a23*A.a32, A.a13*A.a32 - A.a12*A.a33, A.a12*A.a23 - A.a13*A.a22,
     A.a23*A.a31 - A.a21*A.a33, A.a11*A.a33 - A.a13*A.a31, A.a13*A.a21 - A.a11*A.a23,
     A.a21*A.a32 - A.a22*A.a31, A.a12*A.a31 - A.a11*A.a32, A.a11*A.a22 - A.a12*A.a21⟩

/-- The identity matrix. -/
def idM {K : Type} [Field K] : Mat3 K := ⟨1, 0, 0, 0, 1, 0, 0, 0, 1⟩

end Mat3

/-
`orientation_plan`, lines 431-436: number of zone-axis subdivision steps.
`np.round` rounds to the nearest value, ties to even ("bankers rounding").
-/

/-- `np.round` on a scalar: round to nearest, ties to the even integer. -/
def roundHalfEven {K : Type} [LinearOrderedField K] [FloorRing K] (q : K) : ℤ :=
  let n := ⌊q⌋
  let f := q - n
  if f < 1/2 then n
  else if 1/2 < f then n + 1
  else if n % 2 = 0 then n else n + 1

/-- Lines 434-436: `np.round(np.maximum(angle_u_v/step, angle_u_w/step))`,
with both edge angles supplied in degrees (the source computes
`(180/np.pi) * angle` with the angle in radians). -/
def zoneAxisSteps {K : Type} [LinearOrderedField K] [FloorRing K]
    (angleDeg1 angleDeg2 step : K) : ℤ :=
  roundHalfEven (max (angleDeg1 / step) (angleDeg2 / step))

/-
`orientation_plan`, lines 560-569: the per-zone-axis rotation matrix
`m1z @ m2x`, built from cos/sin of the azimuth and elevation angles.
-/

/-- Line 561-564: azimuth rotation about z, entries from `cos(azim)`, `sin(azim)`. -/
def m1z {K : Type} [CommRing K] (ca sa : K) : Mat3 K :=
  ⟨ca, -sa, 0,
   sa,  ca, 0,
   0,   0,  1⟩

/-- Line 565-568: elevation rotation about the resulting x-axis,
entries from `cos(elev)`, `sin(elev)`. -/
def m2x {K : Type} [CommRing K] (ce se : K) : Mat3 K :=
  ⟨1,  0,   0,
   0,  ce,  se,
   0, -se,  ce⟩

/-- Line 569: `orientation_rotation_matrices[a0] = m1z @ m2x`. -/
def orientationRotationMatrix {K : Type} [CommRing K] (ca sa ce se : K) : Mat3 K :=
  (m1z ca sa).mulM (m2x ce se)

/-- Claim C6: for every sampled orientation, the third column of the rotation
matrix `m1z @ m2x` (lines 560-569) equals the sampled unit zone-axis direction.
The hypotheses are the algebraic identities satisfied by
`azim = -π/2 + atan2(v.y, v.x)` and `elev = atan2(hypot(v.x, v.y), v.z)`
(lines 514-521) for a unit vector `v`: writing `h = hypot(v.x, v.y)`,
`cos(azim)·h = v.y`, `sin(azim)·h = -v.x`, `cos(elev) = v.z`, and
`sin(elev) = h`; substituting `se = sin(elev)` for `h` gives exactly the
three hypotheses below. -/
theorem C6_third_column_zone_axis {K : Type} [CommRing K]
    (v : Vec3 K) (ca sa ce se : K)
    (hy : ca * se = v.y) (hx : sa * se = -v.x) (hz : ce = v.z) :
    (orientationRotationMatrix ca sa ce se).col3 = v := by
  obtain ⟨x, y, z⟩ := v
  simp only [orientationRotationMatrix, Mat3.mulM, m1z, m2x, Mat3.col3, Vec3.mk.injEq] at *
  refine ⟨?_, ?_, ?_⟩
  · linear_combination (-1 : K) * hx
  · linear_combination hy
  · linear_combination hz

/-- Witness for C6 at the apex direction `v = (0,0,1)`:
there `atan2(0,0) = 0`, so `azim = -π/2`, `elev = 0`, giving
`ca = 0`, `sa = -1`, `ce = 1`, `se = 0`. -/
theorem C6_third_column_zone_axis_witness :
    (0 : ℚ) * 0 = (Vec3.mk (0:ℚ) 0 1).y ∧ (-1 : ℚ) * 0 = -(Vec3.mk (0:ℚ) 0 1).x ∧
    (orientationRotationMatrix (0:ℚ) (-1) 1 0).col3 = Vec3.mk (0:ℚ) 0 1 := by
  refine ⟨by norm_num, by norm_num,
    C6_third_column_zone_axis _ 0 (-1) 1 0 (by norm_num) (by norm_num) rfl⟩

/-- Claim C3: for the sector `[[0,0,1],[0,1,1]]` with a 2-degree zone-axis
step, `orientation_zone_axis_steps = round(45/2) = 23`.  The machine-evaluated
edge angle is strictly above 45 degrees: the second edge direction is
normalized by the computed `norm([0,1,1])`, which rounds above √2, so the
stored z-component (= the dot product with the apex) is
`0.7071067811865475… < 1/√2 = √2/2`; the first conjunct shows that the angle
`(180/π)·arccos` of any such value exceeds 45°, so there is no rounding tie
at 22.5 (numerically the ratio is 22.500000000000004).  The second conjunct
computes the level count for the resulting angle: `np.round` of any
angle-over-step ratio in (22.5, 23.5) — the machine value 45.000000000000007°
over the 2° step lies well inside — equals 23. -/
theorem C3_steps_23 :
    (∀ x : ℝ, x < Real.sqrt 2 / 2 → 45 < (180 / Real.pi) * Real.arccos x) ∧
    (∀ angleDeg : ℚ, 45 < angleDeg → angleDeg < 47 →
      zoneAxisSteps 0 angleDeg 2 = 23) := by
  constructor
  · intro x hx
    have hgt : Real.pi / 4 < Real.arccos x :=
      not_le.1 fun hle => (not_le.2 hx) (Real.arccos_le_pi_div_four.1 hle)
    have h45 : (180 / Real.pi) * (Real.pi / 4) = 45 := by
      have hpi : Real.pi ≠ 0 := Real.pi_ne_zero
      field_simp
      ring
    calc (45:ℝ) = (180 / Real.pi) * (Real.pi / 4) := h45.symm
      _ < (180 / Real.pi) * Real.arccos x :=
          mul_lt_mul_of_pos_left hgt (by positivity)
  · intro q h1 h2
    have hmax : max ((0:ℚ) / 2) (q / 2) = q / 2 := by
      rw [max_eq_right]
      linarith
    unfold zoneAxisSteps
    rw [hmax]
    unfold roundHalfEven
    dsimp only
    rcases lt_or_le (q/2) 23 with hq | hq
    · have hfl : ⌊(q/2 : ℚ)⌋ = (22:ℤ) := by
        rw [Int.floor_eq_iff]
        constructor
        · push_cast
          linarith
        · push_cast
          linarith
      rw [hfl]
      rw [if_neg (by push_cast; linarith), if_pos (by push_cast; linarith)]
      decide
    · have hfl : ⌊(q/2 : ℚ)⌋ = (23:ℤ) := by
        rw [Int.floor_eq_iff]
        constructor
        · push_cast
          linarith
        · push_cast
          linarith
      rw [hfl]
      rw [if_pos (by push_cast; linarith)]

/-- Witness for C3: the first conjunct at `x = 7/10 < √2/2`, the second at
the machine-like angle `45 + 1/10^14` degrees. -/
theorem C3_steps_23_witness :
    ((7/10 : ℝ) < Real.sqrt 2 / 2 ∧ 45 < (180 / Real.pi) * Real.arccos (7/10)) ∧
    (45 < (45 + 1/10^14 : ℚ) ∧ (45 + 1/10^14 : ℚ) < 47 ∧
      zoneAxisSteps 0 (45 + 1/10^14 : ℚ) 2 = 23) := by
  have hx : (7/10 : ℝ) < Real.sqrt 2 / 2 := by
    have h2 : Real.sqrt 2 * Real.sqrt 2 = 2 := Real.mul_self_sqrt (by norm_num)
    nlinarith [Real.sqrt_nonneg 2]
  exact ⟨⟨hx, C3_steps_23.1 (7/10) hx⟩,
    ⟨by norm_num, by norm_num,
      C3_steps_23.2 (45 + 1/10^14) (by norm_num) (by norm_num)⟩⟩

/-
`match_single_pattern`, lines 1206-1229: multi-match peak deletion.
For each observed peak the squared distances to all predicted peaks are
computed, the minimum is taken, and the peak is removed (`dist_min <
tol_peak_delete`), down-weighted (`dist_min < kernel size`, with
`scale_int = (dist_min - tol)/(kernel - tol)`), or — because `scale_int`
is initialized with `np.zeros_like(qx)` — multiplied by 0 otherwise.
`np.sqrt` is carried as the explicit function parameter `root`.
-/

/-- An observed Bragg peak (`qx`, `qy`, `intensity`). -/
structure BraggPeak (K : Type) where
  qx : K
  qy : K
  intensity : K
deriving DecidableEq

/-- Lines 1215-1218: minimum of the squared distances from `(qx, qy)` to the
predicted peaks (`np.min(d_2)`, defined only for a nonempty prediction). -/
def distMinSq {K : Type} [LinearOrder K] [CommRing K]
    (pred : List (K × K)) (qx qy : K) : K :=
  match pred.map (fun p => (p.1 - qx)^2 + (p.2 - qy)^2) with
  | [] => 0
  | d :: ds => ds.foldl min d

/-- Lines 1212-1229: one multi-match peak-deletion pass. Peaks with
`dist_min < tol_peak_delete` are removed; the rest survive with intensity
multiplied by `scale_int`, which is `(dist_min - tol)/(kernel - tol)` in the
transition band and 0 otherwise (`scale_int` is initialized to zeros). -/
def peakDeleteStep {K : Type} [LinearOrderedField K] (root : K → K)
    (pred : List (K × K)) (tolDel kernel : K)
    (peaks : List (BraggPeak K)) : List (BraggPeak K) :=
  peaks.filterMap (fun pk =>
    let distMin := root (distMinSq pred pk.qx pk.qy)
    if distMin < tolDel then none
    else if distMin < kernel then
      some ⟨pk.qx, pk.qy, pk.intensity * ((distMin - tolDel) / (kernel - tolDel))⟩
    else some ⟨pk.qx, pk.qy, pk.intensity * 0⟩)

/-- Claim C2 (code bug): an observed peak at (3,4) with intensity 2 lies at
distance 5 from the only predicted peak (0,0); with deletion tolerance 1/2
and kernel size 1 it is neither removed nor in the transition band, yet the
code carries it into the next iteration with intensity 2 · 0 = 0, not 2:
`scale_int` is initialized with `np.zeros_like` instead of ones, so every
peak farther than the kernel size from all predicted peaks is zeroed.
(`root` is instantiated with the constant 5, which agrees with `np.sqrt`
at the only evaluated argument, 25.) -/
theorem C2_far_peak_intensity_zeroed :
    distMinSq [((0:ℚ), (0:ℚ))] 3 4 = 25 ∧
    (1 : ℚ) ≤ 5 ∧ (1/2 : ℚ) ≤ 5 ∧
    peakDeleteStep (fun _ => (5:ℚ)) [((0:ℚ), (0:ℚ))] (1/2) 1 [⟨3, 4, 2⟩]
      = [⟨3, 4, 0⟩] := by
  refine ⟨by norm_num [distMinSq], by norm_num, by norm_num, ?_⟩
  simp only [peakDeleteStep, List.filterMap]
  norm_num

/-
`match_single_pattern`, lines 1062-1178: zone-axis subpixel refinement.
-/

/-- Lines 1066-1069: `ind_to_sub`. `floor(0.5*sqrt(8*ind+1) - 0.5)` equals
`(Nat.sqrt (8*ind+1) - 1) / 2` in exact integer arithmetic. -/
def indToSub (ind : ℕ) : ℕ × ℕ :=
  let ix := (Nat.sqrt (8*ind + 1) - 1) / 2
  (ix, ind - ix*(ix+1)/2)

/-- Lines 1070-1071: `sub_to_ind`, flattening the triangular grid index. -/
def subToInd (ix iy : ℕ) : ℕ := ix*(ix+1)/2 + iy

/-- Lines 1094-1104 (repeated verbatim at 1110-1120 and 1127-1137): the 1D
parabolic blend of the best-fit grid matrix with one of its neighbors `ip`
(previous) / `iq` (post), using the fitted offset
`dc = (c2-c0)/(4*c1-2*c0-2*c2)`. -/
def parabolicBlend1D {K : Type} [LinearOrderedField K]
    (corr : ℕ → K) (mats : ℕ → Mat3 K) (indBest ip iq : ℕ) : Mat3 K :=
  let c0 := corr ip
  let c1 := corr indBest
  let c2 := corr iq
  let dc := (c2 - c0) / (4*c1 - 2*c0 - 2*c2)
  if 0 < dc then
    Mat3.addM (Mat3.smulM (1 - dc) (mats indBest)) (Mat3.smulM dc (mats iq))
  else
    Mat3.addM (Mat3.smulM (1 + dc) (mats indBest)) (Mat3.smulM (-dc) (mats ip))

/-- Lines 1141-1178: the 2D interior blend over the 6-neighbor pattern
`i1 = (x-1,y-1)`, `i2 = (x-1,y)`, `i3 = (x,y-1)`, `i4 = (x,y+1)`,
`i5 = (x+1,y)`, `i6 = (x+1,y+1)`. -/
def interiorBlend2D {K : Type} [LinearOrderedField K]
    (corr : ℕ → K) (mats : ℕ → Mat3 K) (indBest i1 i2 i3 i4 i5 i6 : ℕ) : Mat3 K :=
  let cx0 := (corr i1 + corr i2) / 2
  let cx1 := corr indBest
  let cx2 := (corr i5 + corr i6) / 2
  let dx := (cx2 - cx0) / (4*cx1 - 2*cx0 - 2*cx2)
  let cy0 := corr i3
  let cy2 := corr i4
  let dy := (cy2 - cy0) / (4*cx1 - 2*cy0 - 2*cy2)
  if 0 < dx then
    if 0 < dy then
      Mat3.addM (Mat3.addM
        (Mat3.smulM ((1-dx)*(1-dy)) (mats indBest))
        (Mat3.smulM ((1-dx)*dy) (mats i4)))
        (Mat3.smulM dx (mats i6))
    else
      Mat3.addM (Mat3.addM
        (Mat3.smulM ((1-dx)*(1+dy)) (mats indBest))
        (Mat3.smulM ((1-dx)*(-dy)) (mats i3)))
        (Mat3.smulM dx (mats i5))
  else
    if 0 < dy then
      Mat3.addM (Mat3.addM
        (Mat3.smulM ((1+dx)*(1-dy)) (mats indBest))
        (Mat3.smulM ((1+dx)*dy) (mats i4)))
        (Mat3.smulM (-dx) (mats i2))
    else
      Mat3.addM (Mat3.addM
        (Mat3.smulM ((1+dx)*(1+dy)) (mats indBest))
        (Mat3.smulM ((1+dx)*(-dy)) (mats i3)))
        (Mat3.smulM (-dx) (mats i1))

/-- Lines 1062-1178 (`subpixel_tilt=True` branch): refinement of the zone-axis
rotation matrix. `corr` is `corr_value`, `mats` is
`orientation_rotation_matrices`, `indBest` is `ind_best_fit`; `numZones` and
`steps` are `orientation_num_zones` and `orientation_zone_axis_steps`. -/
def refineZoneAxisMatrix {K : Type} [LinearOrderedField K]
    (numZones steps : ℕ) (corr : ℕ → K) (mats : ℕ → Mat3 K)
    (indBest : ℕ) : Mat3 K :=
  if indBest = 0 then mats indBest
  else if indBest = numZones - steps - 1 then mats indBest
  else if indBest = numZones - 1 then mats indBest
  else
    let s := indToSub indBest
    let mx := (indToSub (numZones - 1)).1
    if s.2 = 0 then
      parabolicBlend1D corr mats indBest (subToInd (s.1 - 1) 0) (subToInd (s.1 + 1) 0)
    else if s.1 = mx then
      parabolicBlend1D corr mats indBest (subToInd mx (s.2 - 1)) (subToInd mx (s.2 + 1))
    else if s.1 = s.2 then
      parabolicBlend1D corr mats indBest
        (subToInd (s.1 - 1) (s.2 - 1)) (subToInd (s.1 + 1) (s.2 + 1))
    else
      interiorBlend2D corr mats indBest
        (subToInd (s.1 - 1) (s.2 - 1)) (subToInd (s.1 - 1) s.2)
        (subToInd s.1 (s.2 - 1)) (subToInd s.1 (s.2 + 1))
        (subToInd (s.1 + 1) s.2) (subToInd (s.1 + 1) (s.2 + 1))

/-- Two-term blend of the same matrix with weights summing to 1. -/
theorem Mat3.blend2_self {K : Type} [LinearOrderedField K] (a b : K)
    (h : a + b = 1) (M : Mat3 K) :
    Mat3.addM (Mat3.smulM a M) (Mat3.smulM b M) = M := by
  obtain ⟨m11, m12, m13, m21, m22, m23, m31, m32, m33⟩ := M
  simp only [Mat3.addM, Mat3.smulM, Mat3.mk.injEq]
  refine ⟨?_, ?_, ?_, ?_, ?_, ?_, ?_, ?_, ?_⟩
  · linear_combination m11 * h
  · linear_combination m12 * h
  · linear_combination m13 * h
  · linear_combination m21 * h
  · linear_combination m22 * h
  · linear_combination m23 * h
  · linear_combination m31 * h
  · linear_combination m32 * h
  · linear_combination m33 * h

/-- Three-term blend of the same matrix with weights summing to 1. -/
theorem Mat3.blend3_self {K : Type} [LinearOrderedField K] (a b c : K)
    (h : a + b + c = 1) (M : Mat3 K) :
    Mat3.addM (Mat3.addM (Mat3.smulM a M) (Mat3.smulM b M)) (Mat3.smulM c M) = M := by
  obtain ⟨m11, m12, m13, m21, m22, m23, m31, m32, m33⟩ := M
  simp only [Mat3.addM, Mat3.smulM, Mat3.mk.injEq]
  refine ⟨?_, ?_, ?_, ?_, ?_, ?_, ?_, ?_, ?_⟩
  · linear_combination m11 * h
  · linear_combination m12 * h
  · linear_combination m13 * h
  · linear_combination m21 * h
  · linear_combination m22 * h
  · linear_combination m23 * h
  · linear_combination m31 * h
  · linear_combination m32 * h
  · linear_combination m33 * h

/-- The 1D blend applied to a constant matrix family returns that matrix:
its two weights sum to 1 in both sign cases. -/
theorem parabolicBlend1D_const {K : Type} [LinearOrderedField K]
    (corr : ℕ → K) (indBest ip iq : ℕ) (M : Mat3 K) :
    parabolicBlend1D corr (fun _ => M) indBest ip iq = M := by
  unfold parabolicBlend1D
  dsimp only
  split
  · apply Mat3.blend2_self; ring
  · apply Mat3.blend2_self; ring

/-- The 2D interior blend applied to a constant matrix family returns that
matrix: its three weights sum to 1 in all four sign cases. -/
theorem interiorBlend2D_const {K : Type} [LinearOrderedField K]
    (corr : ℕ → K) (indBest i1 i2 i3 i4 i5 i6 : ℕ) (M : Mat3 K) :
    interiorBlend2D corr (fun _ => M) indBest i1 i2 i3 i4 i5 i6 = M := by
  unfold interiorBlend2D
  dsimp only
  repeat' split
  all_goals (apply Mat3.blend3_self; ring)

/-- Claim C10: in every branch of the zone-axis subpixel refinement
(lines 1086-1178) — the three 1D edge/diagonal blends and the four 2D
interior blends, for every sign of the fitted offsets — the scalar weights
applied to the grid rotation matrices sum exactly to 1.  Equivalently, since
each branch is linear in the matrices with scalars independent of them, the
blended matrix is an affine combination: when every grid matrix equals `M`,
the refined matrix is again `M`, for all correlation values and indices. -/
theorem C10_blend_weights_affine {K : Type} [LinearOrderedField K]
    (numZones steps : ℕ) (corr : ℕ → K) (indBest : ℕ) (M : Mat3 K) :
    refineZoneAxisMatrix numZones steps corr (fun _ => M) indBest = M := by
  unfold refineZoneAxisMatrix
  dsimp only
  repeat' split
  all_goals first
    | rfl
    | apply parabolicBlend1D_const
    | apply interiorBlend2D_const

/-- Claim C4, counterexample: with `orientation_zone_axis_steps = 2` the grid
has `orientation_num_zones = 6` entries and corner indices 0, 3 = 6-2-1 and
5 = 6-1.  The index 1 lies on the boundary of the triangular grid (its grid
coordinates are `(1, 0)`, i.e. `ind_y = 0`) but is not a corner; contrary to
the claim, the refinement does not return the grid matrix verbatim there: with
correlation values `corr 0 = 0`, `corr 1 = 2`, `corr 3 = 1` the fitted offset
is `dc = 1/6 > 0` and the result is the blend `(5/6)·mats 1 + (1/6)·mats 3
≠ mats 1`. -/
theorem C4_edge_index_blended :
    (indToSub 1).2 = 0 ∧ (1:ℕ) ≠ 0 ∧ (1:ℕ) ≠ 6 - 2 - 1 ∧ (1:ℕ) ≠ 6 - 1 ∧
    refineZoneAxisMatrix 6 2
      (fun i => if i = 1 then (2:ℚ) else if i = 3 then 1 else 0)
      (fun i => if i = 3 then (⟨6,6,6,6,6,6,6,6,6⟩ : Mat3 ℚ) else ⟨0,0,0,0,0,0,0,0,0⟩) 1
      ≠ (fun i : ℕ => if i = 3 then (⟨6,6,6,6,6,6,6,6,6⟩ : Mat3 ℚ) else ⟨0,0,0,0,0,0,0,0,0⟩) 1 := by
  refine ⟨by norm_num [indToSub], by norm_num, by norm_num, by norm_num, ?_⟩
  have hsub : indToSub 1 = (1, 0) := by norm_num [indToSub]
  have hmx : indToSub 5 = (2, 2) := by norm_num [indToSub]
  norm_num [refineZoneAxisMatrix, hsub, hmx, parabolicBlend1D, subToInd,
    Mat3.addM, Mat3.smulM, Mat3.mk.injEq]

/-- Claim C4, amended: only the three corner indices of the triangular grid —
0 (the apex `[0,0,1]`), `num_zones - steps - 1` (the first user-provided
direction) and `num_zones - 1` (the second user-provided direction) — skip
zone-axis subpixel refinement and use the grid rotation matrix verbatim
(lines 1074-1084); a best-fit index on a grid edge that is not a corner is
instead refined by a 1D parabolic blend along that edge. -/
theorem C4_corner_verbatim {K : Type} [LinearOrderedField K]
    (numZones steps : ℕ) (corr : ℕ → K) (mats : ℕ → Mat3 K) (indBest : ℕ)
    (h : indBest = 0 ∨ indBest = numZones - steps - 1 ∨ indBest = numZones - 1) :
    refineZoneAxisMatrix numZones steps corr mats indBest = mats indBest := by
  unfold refineZoneAxisMatrix
  rcases h with h | h | h
  · rw [if_pos h]
  · by_cases h0 : indBest = 0
    · rw [if_pos h0]
    · rw [if_neg h0, if_pos h]
  · by_cases h0 : indBest = 0
    · rw [if_pos h0]
    · by_cases h1 : indBest = numZones - steps - 1
      · rw [if_neg h0, if_pos h1]
      · rw [if_neg h0, if_neg h1, if_pos h]

/-- Witness for C4 at the corner index 0 of the 6-entry grid. -/
theorem C4_corner_verbatim_witness :
    ((0:ℕ) = 0 ∨ (0:ℕ) = 6 - 2 - 1 ∨ (0:ℕ) = 6 - 1) ∧
    refineZoneAxisMatrix 6 2 (fun _ => (0:ℚ)) (fun _ => Mat3.idM) 0
      = (fun _ : ℕ => (Mat3.idM : Mat3 ℚ)) 0 :=
  ⟨Or.inl rfl, C4_corner_verbatim 6 2 (fun _ => (0:ℚ)) (fun _ => Mat3.idM) 0 (Or.inl rfl)⟩

/-
`match_single_pattern`, lines 1040-1056: per-orientation in-plane refinement.
-/

/-- Helper for `np.argmax`: scan the remaining list `cs` whose first element
has position `i`, carrying the best index `bi` and best value `bv`; a later
element replaces the best only if strictly greater, so the first maximum wins
(numpy semantics). -/
def argmaxAux {K : Type} [LinearOrder K] : List K → ℕ → ℕ → K → ℕ × K
  | [], _, bi, bv => (bi, bv)
  | c :: cs, i, bi, bv =>
    if bv < c then argmaxAux cs (i+1) i c
    else argmaxAux cs (i+1) bi bv

/-- Line 1043: `np.argmax` over one orientation's correlation curve
(first index of the maximum; 0 on the empty list). -/
def npArgmax {K : Type} [LinearOrder K] : List K → ℕ
  | [] => 0
  | c :: cs => (argmaxAux cs 1 0 c).1

/-- The running best value of the argmax scan bounds the seed and all
scanned elements. -/
theorem argmaxAux_snd_bound {K : Type} [LinearOrder K] :
    ∀ (cs : List K) (i bi : ℕ) (bv : K),
      bv ≤ (argmaxAux cs i bi bv).2 ∧ ∀ c ∈ cs, c ≤ (argmaxAux cs i bi bv).2 := by
  intro cs
  induction cs with
  | nil => intro i bi bv; exact ⟨le_refl _, by simp⟩
  | cons c cs ih =>
    intro i bi bv
    simp only [argmaxAux]
    by_cases h : bv < c
    · rw [if_pos h]
      obtain ⟨h1, h2⟩ := ih (i+1) i c
      refine ⟨le_of_lt (lt_of_lt_of_le h h1), ?_⟩
      intro d hd
      rcases List.mem_cons.1 hd with rfl | hd
      · exact h1
      · exact h2 d hd
    · rw [if_neg h]
      obtain ⟨h1, h2⟩ := ih (i+1) bi bv
      refine ⟨h1, ?_⟩
      intro d hd
      rcases List.mem_cons.1 hd with rfl | hd
      · exact le_trans (le_of_not_lt h) h1
      · exact h2 d hd

/-- The argmax scan returns an in-range index whose list entry is the
returned value. -/
theorem argmaxAux_fst_spec {K : Type} [LinearOrder K] (d : K) :
    ∀ (cs : List K) (l : List K) (i bi : ℕ) (bv : K),
      l.drop i = cs → bi < i → i ≤ l.length → l.getD bi d = bv →
      (argmaxAux cs i bi bv).1 < l.length ∧
        l.getD (argmaxAux cs i bi bv).1 d = (argmaxAux cs i bi bv).2 := by
  intro cs
  induction cs with
  | nil =>
    intro l i bi bv _ hbi hi hbv
    exact ⟨lt_of_lt_of_le hbi hi, hbv⟩
  | cons c cs ih =>
    intro l i bi bv hd hbi hi hbv
    have hilt : i < l.length := by
      by_contra hge
      rw [List.drop_eq_nil_of_le (le_of_not_lt hge)] at hd
      exact List.cons_ne_nil c cs hd.symm
    have hd2 : c :: cs = l[i] :: l.drop (i+1) := by
      rw [← hd]; exact List.drop_eq_getElem_cons hilt
    injection hd2 with hc hcs
    simp only [argmaxAux]
    by_cases h : bv < c
    · rw [if_pos h]
      exact ih l (i+1) i c hcs.symm (Nat.lt_succ_self i) hilt
        (by rw [List.getD_eq_getElem l d hilt, hc])
    · rw [if_neg h]
      exact ih l (i+1) bi bv hcs.symm (Nat.lt_succ_of_lt hbi) hilt hbv

/-- `np.argmax` of a nonempty curve is an in-range index. -/
theorem npArgmax_lt_length {K : Type} [LinearOrder K] (d : K)
    (l : List K) (h : l ≠ []) : npArgmax l < l.length := by
  match l with
  | c :: cs =>
    have := argmaxAux_fst_spec d cs (c :: cs) 1 0 c rfl Nat.one_pos
      (by simp) (by simp)
    exact this.1

/-- The curve value at `np.argmax` bounds every element of the curve. -/
theorem getD_npArgmax_max {K : Type} [LinearOrder K] (d : K)
    (l : List K) : ∀ x ∈ l, x ≤ l.getD (npArgmax l) d := by
  match l with
  | [] => simp
  | c :: cs =>
    intro x hx
    have hspec := argmaxAux_fst_spec d cs (c :: cs) 1 0 c rfl Nat.one_pos
      (by simp) (by simp)
    have hbound := argmaxAux_snd_bound cs 1 0 c
    have hval : (c :: cs).getD (npArgmax (c :: cs)) d = (argmaxAux cs 1 0 c).2 := hspec.2
    rw [hval]
    rcases List.mem_cons.1 hx with rfl | hx
    · exact hbound.1
    · exact hbound.2 x hx

/-- Lines 1049-1056: subpixel refinement of the in-plane angle for one
orientation.  `curve` is the row `corr_full[a0]`, `dphi` the angular step
(`gamma[1] - gamma[0]`, with `gamma[i] = i*dphi`).  The three samples are
taken at `np.mod(ind_phi + [-1, 0, 1], n)`; when their maximum is positive
the fitted peak value and refined angle are computed, otherwise both outputs
keep their zero-initialized values (`corr_value`, `corr_in_plane_angle`). -/
def inPlaneFit {K : Type} [LinearOrderedField K] (curve : List K) (dphi : K) : K × K :=
  let n := curve.length
  let i := npArgmax curve
  let c0 := curve.getD ((i + n - 1) % n) 0
  let c1 := curve.getD (i % n) 0
  let c2 := curve.getD ((i + 1) % n) 0
  if 0 < max c0 (max c1 c2) then
    (c1 + (c0 - c2)^2 / (4*(2*c1 - c0 - c2)^2),
     (i : K) * dphi + ((c2 - c0) / (4*c1 - 2*c0 - 2*c2)) * dphi)
  else (0, 0)

/-- Lines 1045-1056 as a whole: the per-orientation loop producing the
fitted value and refined angle for every orientation independently. -/
def inPlaneFitAll {K : Type} [LinearOrderedField K]
    (curves : List (List K)) (dphi : K) : List (K × K) :=
  curves.map (fun c => inPlaneFit c dphi)

/-- A curve with no positive value skips the refinement branch. -/
theorem inPlaneFit_nonpos {K : Type} [LinearOrderedField K]
    (curve : List K) (dphi : K) (h : ∀ x ∈ curve, x ≤ 0) :
    inPlaneFit curve dphi = (0, 0) := by
  unfold inPlaneFit
  dsimp only
  rw [if_neg]
  rw [not_lt]
  have hKey : ∀ j : ℕ, curve.getD j 0 ≤ 0 := by
    intro j
    by_cases hj : j < curve.length
    · exact h _ (by rw [List.getD_eq_getElem curve 0 hj]; exact List.getElem_mem hj)
    · rw [List.getD_eq_default curve 0 (le_of_not_lt hj)]
  exact max_le (hKey _) (max_le (hKey _) (hKey _))

/-- Claim C8: for an orientation whose correlation curve has a positive
maximum, the refined outputs follow the 3-point parabolic formulas at the
argmax index `i` and its cyclic neighbors: fitted peak value
`c1 + (c0-c2)²/(4(2c1-c0-c2)²)`, fitted offset `(c2-c0)/(4c1-2c0-2c2)`, and
refined angle = grid angle `i*dphi` plus offset times `dphi`; moreover the
argmax entry bounds the whole curve. -/
theorem C8_parabolic_refinement {K : Type} [LinearOrderedField K]
    (curve : List K) (dphi : K) (hpos : ∃ x ∈ curve, 0 < x) :
    (∀ x ∈ curve, x ≤ curve.getD (npArgmax curve) 0) ∧
    inPlaneFit curve dphi =
      (curve.getD (npArgmax curve) 0 +
        (curve.getD ((npArgmax curve + curve.length - 1) % curve.length) 0
          - curve.getD ((npArgmax curve + 1) % curve.length) 0)^2 /
        (4*(2*curve.getD (npArgmax curve) 0
          - curve.getD ((npArgmax curve + curve.length - 1) % curve.length) 0
          - curve.getD ((npArgmax curve + 1) % curve.length) 0)^2),
       (npArgmax curve : K) * dphi +
        ((curve.getD ((npArgmax curve + 1) % curve.length) 0
          - curve.getD ((npArgmax curve + curve.length - 1) % curve.length) 0) /
         (4*curve.getD (npArgmax curve) 0
          - 2*curve.getD ((npArgmax curve + curve.length - 1) % curve.length) 0
          - 2*curve.getD ((npArgmax curve + 1) % curve.length) 0)) * dphi) := by
  obtain ⟨x0, hx0mem, hx0⟩ := hpos
  have hne : curve ≠ [] := by
    rintro rfl
    exact absurd hx0mem (List.not_mem_nil x0)
  have hlt : npArgmax curve < curve.length := npArgmax_lt_length 0 curve hne
  have hmax := getD_npArgmax_max (0 : K) curve
  have hmod : npArgmax curve % curve.length = npArgmax curve := Nat.mod_eq_of_lt hlt
  refine ⟨hmax, ?_⟩
  unfold inPlaneFit
  dsimp only
  rw [hmod]
  rw [if_pos]
  exact lt_max_of_lt_right (lt_max_of_lt_left
    (lt_of_lt_of_le hx0 (hmax x0 hx0mem)))

/-- Witness for C8 on the curve `[1, 3, 2]` with `dphi = 5`. -/
theorem C8_parabolic_refinement_witness :
    (∃ x ∈ [(1:ℚ), 3, 2], 0 < x) ∧
    ((∀ x ∈ [(1:ℚ), 3, 2], x ≤ [(1:ℚ), 3, 2].getD (npArgmax [(1:ℚ), 3, 2]) 0) ∧
    inPlaneFit [(1:ℚ), 3, 2] 5 =
      ([(1:ℚ), 3, 2].getD (npArgmax [(1:ℚ), 3, 2]) 0 +
        ([(1:ℚ), 3, 2].getD ((npArgmax [(1:ℚ), 3, 2] + [(1:ℚ), 3, 2].length - 1) % [(1:ℚ), 3, 2].length) 0
          - [(1:ℚ), 3, 2].getD ((npArgmax [(1:ℚ), 3, 2] + 1) % [(1:ℚ), 3, 2].length) 0)^2 /
        (4*(2*[(1:ℚ), 3, 2].getD (npArgmax [(1:ℚ), 3, 2]) 0
          - [(1:ℚ), 3, 2].getD ((npArgmax [(1:ℚ), 3, 2] + [(1:ℚ), 3, 2].length - 1) % [(1:ℚ), 3, 2].length) 0
          - [(1:ℚ), 3, 2].getD ((npArgmax [(1:ℚ), 3, 2] + 1) % [(1:ℚ), 3, 2].length) 0)^2),
       (npArgmax [(1:ℚ), 3, 2] : ℚ) * 5 +
        (([(1:ℚ), 3, 2].getD ((npArgmax [(1:ℚ), 3, 2] + 1) % [(1:ℚ), 3, 2].length) 0
          - [(1:ℚ), 3, 2].getD ((npArgmax [(1:ℚ), 3, 2] + [(1:ℚ), 3, 2].length - 1) % [(1:ℚ), 3, 2].length) 0) /
         (4*[(1:ℚ), 3, 2].getD (npArgmax [(1:ℚ), 3, 2]) 0
          - 2*[(1:ℚ), 3, 2].getD ((npArgmax [(1:ℚ), 3, 2] + [(1:ℚ), 3, 2].length - 1) % [(1:ℚ), 3, 2].length) 0
          - 2*[(1:ℚ), 3, 2].getD ((npArgmax [(1:ℚ), 3, 2] + 1) % [(1:ℚ), 3, 2].length) 0)) * 5)) :=
  ⟨⟨3, by simp, by norm_num⟩,
    C8_parabolic_refinement [(1:ℚ), 3, 2] 5 ⟨3, by simp, by norm_num⟩⟩

/-- Claim C9: an orientation whose correlation curve is entirely non-positive
skips subpixel refinement — its fitted value and refined angle keep their
zero-initialized values — and the per-orientation map is total, so every
other orientation is still processed (the output list keeps one entry per
orientation). -/
theorem C9_nonpositive_skip {K : Type} [LinearOrderedField K]
    (curves : List (List K)) (dphi : K) (i : ℕ) (c : List K)
    (hc : curves[i]? = some c) (hnp : ∀ x ∈ c, x ≤ 0) :
    (inPlaneFitAll curves dphi)[i]? = some (0, 0) ∧
    (inPlaneFitAll curves dphi).length = curves.length := by
  constructor
  · rw [inPlaneFitAll, List.getElem?_map, hc, Option.map_some']
    rw [inPlaneFit_nonpos c dphi hnp]
  · simp [inPlaneFitAll]

/-- Witness for C9 on the curve list `[[-1, 0], [5]]` at index 0. -/
theorem C9_nonpositive_skip_witness :
    [[(-1:ℚ), 0], [5]][0]? = some [(-1:ℚ), 0] ∧
    ((inPlaneFitAll [[(-1:ℚ), 0], [5]] 7)[0]? = some (0, 0) ∧
    (inPlaneFitAll [[(-1:ℚ), 0], [5]] 7).length = [[(-1:ℚ), 0], [5]].length) :=
  ⟨rfl, C9_nonpositive_skip [[(-1:ℚ), 0], [5]] 7 0 [(-1:ℚ), 0] rfl
    (by intro x hx; rcases List.mem_cons.1 hx with rfl | hx
        · norm_num
        · rcases List.mem_cons.1 hx with rfl | hx
          · norm_num
          · exact absurd hx (List.not_mem_nil x))⟩

/-
`calculate_structure_factors`, lines 86-153.  The model works over ℚ (every
machine float is rational).  Norm comparisons are carried on squares; the
external `single_atom_scatter` form factor is the black-box parameter `fe`
(reparametrized by the squared scattering-vector length), and the unit phase
factor `exp(2πi·x)` is carried as the parameter pair `c2p`/`s2p` standing for
`cos(2πx)`/`sin(2πx)`.
-/

/-- Lines 109-112: one axis of the meshgrid, `np.arange(-num_tile, num_tile+1)`. -/
def tileAxis (n : ℕ) : List ℤ :=
  (List.range (2*n + 1)).map (fun (i : ℕ) => (i : ℤ) - (n : ℤ))

/-- Lines 109-113: all candidate (h,k,l) triples of the tiled lattice
(meshgrid + ravel; the enumeration order is irrelevant to the kept set). -/
def candidateHKL (n : ℕ) : List (ℤ × ℤ × ℤ) :=
  (tileAxis n).flatMap (fun h =>
    (tileAxis n).flatMap (fun k =>
      (tileAxis n).map (fun l => (h, k, l))))

/-- Lines 93-104: the ten test combinations of the rows of `lat_inv`. -/
def kTestRows (L : Mat3 ℚ) : List (Vec3 ℚ) :=
  [L.row1, L.row2, L.row3,
   L.row1.add L.row2, L.row1.add L.row3, L.row2.add L.row3,
   (L.row1.add L.row2).add L.row3,
   (L.row1.sub L.row2).add L.row3,
   (L.row1.add L.row2).sub L.row3,
   (L.row1.sub L.row2).sub L.row3]

/-- Line 105: the squared minimum norm over the test combinations
(`np.min(np.linalg.norm(k_test, axis=1))**2`). -/
def kLengMinSq (L : Mat3 ℚ) : ℚ :=
  match (kTestRows L).map Vec3.normSq with
  | [] => 0
  | d :: ds => ds.foldl min d

/-- Line 108: `num_tile = np.ceil(k_max / k_leng_min)` — the least natural
`n` with `k_max ≤ n·k_leng_min`, encoded on squares as the least `n` with
`k_max² ≤ n²·k_leng_min²`; searched below the safe upper bound
`⌈k_max²/k_leng_min²⌉` (for `0 < k_max` the ratio is ≥ its square root). -/
def numTile (kmax lmin2 : ℚ) : ℕ :=
  let bound := Nat.ceil (kmax^2 / lmin2)
  (List.find? (fun (n : ℕ) => decide (kmax^2 ≤ (n:ℚ)^2 * lmin2))
    (List.range (bound + 1))).getD bound

/-- A crystal: real-space lattice (rows = lattice vectors, line 66) and the
atomic basis (atomic number + fractional position, lines 69-72). -/
structure CrystalCell where
  latReal : Mat3 ℚ
  atoms : List (ℕ × Vec3 ℚ)

/-- Line 114: `g_vec_all = lat_inv @ hkl` for one column. -/
def gVec (latInv : Mat3 ℚ) (hkl : ℤ × ℤ × ℤ) : Vec3 ℚ :=
  latInv.mulVec ⟨(hkl.1 : ℚ), (hkl.2.1 : ℚ), (hkl.2.2 : ℚ)⟩

/-- Line 143: the phase `Σ hkl·position` of one atom. -/
def sfPhase (hkl : ℤ × ℤ × ℤ) (p : Vec3 ℚ) : ℚ :=
  (hkl.1 : ℚ) * p.x + (hkl.2.1 : ℚ) * p.y + (hkl.2.2 : ℚ) * p.z

/-- Lines 139-143, real part: `Σ_atoms f_e · cos(2π·phase)`. -/
def structFactorRe (fe : ℕ → ℚ → ℚ) (c2p : ℚ → ℚ) (cell : CrystalCell)
    (hkl : ℤ × ℤ × ℤ) (glen2 : ℚ) : ℚ :=
  (cell.atoms.map (fun a => fe a.1 glen2 * c2p (sfPhase hkl a.2))).sum

/-- Lines 139-143, imaginary part: `Σ_atoms f_e · sin(2π·phase)`. -/
def structFactorIm (fe : ℕ → ℚ → ℚ) (s2p : ℚ → ℚ) (cell : CrystalCell)
    (hkl : ℤ × ℤ × ℤ) (glen2 : ℚ) : ℚ :=
  (cell.atoms.map (fun a => fe a.1 glen2 * s2p (sfPhase hkl a.2))).sum

/-- `np.abs(struct_factors)**2` for one point. -/
def structFactorAbsSq (fe : ℕ → ℚ → ℚ) (c2p s2p : ℚ → ℚ) (cell : CrystalCell)
    (hkl : ℤ × ℤ × ℤ) (glen2 : ℚ) : ℚ :=
  (structFactorRe fe c2p cell hkl glen2)^2 + (structFactorIm fe s2p cell hkl glen2)^2

/-- Lines 86-153: the retained (h,k,l) triples after both filters — the norm
filter `‖g‖ ≤ k_max` (line 117, on squares) and the structure-factor filter
`|S| > tol_structure_factor` (line 146, on squares). -/
def calcStructureFactors (fe : ℕ → ℚ → ℚ) (c2p s2p : ℚ → ℚ)
    (cell : CrystalCell) (kmax tol : ℚ) : List (ℤ × ℤ × ℤ) :=
  let latInv := Mat3.inv3 cell.latReal
  let keep1 := (candidateHKL (numTile kmax (kLengMinSq latInv))).filter
    (fun hkl => decide (Vec3.normSq (gVec latInv hkl) ≤ kmax^2))
  keep1.filter (fun hkl =>
    decide (tol^2 < structFactorAbsSq fe c2p s2p cell hkl
      (Vec3.normSq (gVec latInv hkl))))

/-- `0` lies on every tile axis. -/
theorem zero_mem_tileAxis (n : ℕ) : (0 : ℤ) ∈ tileAxis n := by
  have h : ((n:ℤ) - (n:ℕ)) ∈ tileAxis n := by
    unfold tileAxis
    exact List.mem_map_of_mem _
      (List.mem_range.2 (show n < 2*n + 1 by omega) : n ∈ List.range (2*n + 1))
  simpa using h

/-- `(0,0,0)` is a candidate triple for every tiling size. -/
theorem zero_mem_candidateHKL (n : ℕ) : ((0:ℤ), (0:ℤ), (0:ℤ)) ∈ candidateHKL n := by
  unfold candidateHKL
  exact List.mem_flatMap.2 ⟨0, zero_mem_tileAxis n, List.mem_flatMap.2 ⟨0, zero_mem_tileAxis n,
    List.mem_map.2 ⟨0, zero_mem_tileAxis n, rfl⟩⟩⟩

/-- Any matrix sends the zero vector to zero. -/
theorem Mat3.mulVec_zero (A : Mat3 ℚ) : A.mulVec ⟨0, 0, 0⟩ = ⟨0, 0, 0⟩ := by
  simp [Mat3.mulVec, Vec3.dot, Mat3.row1, Mat3.row2, Mat3.row3]

/-- The concrete cubic cell of the counterexample: identity lattice, a single
atom at the origin. -/
def exCell : CrystalCell := ⟨Mat3.idM, [(1, ⟨0, 0, 0⟩)]⟩

/-- The zero beam is kept by `calculate_structure_factors` on `exCell` with
`fe ≡ 1` (any positive form factor behaves the same), `k_max = 1`,
`tol_structure_factor = 1/100`: the only phase ever evaluated is 0, where
`cos(2π·0) = 1` and `sin(2π·0) = 0`, so the instantiation `c2p ≡ 1`,
`s2p ≡ 0` agrees with the true phase factors at every evaluated argument. -/
theorem exCell_keeps_zero_beam :
    ((0:ℤ), (0:ℤ), (0:ℤ)) ∈
      calcStructureFactors (fun _ _ => 1) (fun _ => 1) (fun _ => 0) exCell 1 (1/100) := by
  have hg : gVec (Mat3.inv3 exCell.latReal) ((0:ℤ), (0:ℤ), (0:ℤ)) = ⟨0, 0, 0⟩ := by
    unfold gVec
    norm_num
    exact Mat3.mulVec_zero _
  unfold calcStructureFactors
  dsimp only
  refine List.mem_filter.2 ⟨List.mem_filter.2 ⟨zero_mem_candidateHKL _, ?_⟩, ?_⟩
  · rw [decide_eq_true_eq, hg]
    norm_num [Vec3.normSq, Vec3.dot]
  · rw [decide_eq_true_eq, hg]
    norm_num [structFactorAbsSq, structFactorRe, structFactorIm, sfPhase, exCell,
      Vec3.normSq, Vec3.dot]

/-- Claim C1, counterexample: on the concrete non-degenerate cell `exCell`
(identity lattice, one atom at the origin) with `k_max = 1` and
`tol_structure_factor = 1/100`, the zero beam `(0,0,0)` IS among the kept
points, and its scattering vector has `‖g‖² = 0` — contradicting "nonzero
|g|; the zero beam is never among the kept points". -/
theorem C1_zero_beam_retained :
    ((0:ℤ), (0:ℤ), (0:ℤ)) ∈
      calcStructureFactors (fun _ _ => 1) (fun _ => 1) (fun _ => 0) exCell 1 (1/100) ∧
    Vec3.normSq (gVec (Mat3.inv3 exCell.latReal) ((0:ℤ), (0:ℤ), (0:ℤ))) = 0 := by
  refine ⟨exCell_keeps_zero_beam, ?_⟩
  have hg : gVec (Mat3.inv3 exCell.latReal) ((0:ℤ), (0:ℤ), (0:ℤ)) = ⟨0, 0, 0⟩ := by
    unfold gVec
    norm_num
    exact Mat3.mulVec_zero _
  rw [hg]
  norm_num [Vec3.normSq, Vec3.dot]

/-- Claim C1, amended: after `calculate_structure_factors`, every retained
point satisfies `‖g‖ ≤ k_max` (encoded on squares) and has structure-factor
magnitude above the tolerance; but the zero beam is retained whenever its
structure factor `Σ_a f_a(0)` exceeds the tolerance (it is excluded only
later, by the shell assignment of `orientation_plan`). -/
theorem C1_kept_points_within_kmax (fe : ℕ → ℚ → ℚ) (c2p s2p : ℚ → ℚ)
    (cell : CrystalCell) (kmax tol : ℚ) (hkl : ℤ × ℤ × ℤ)
    (hmem : hkl ∈ calcStructureFactors fe c2p s2p cell kmax tol) :
    Vec3.normSq (gVec (Mat3.inv3 cell.latReal) hkl) ≤ kmax^2 ∧
    tol^2 < structFactorAbsSq fe c2p s2p cell hkl
      (Vec3.normSq (gVec (Mat3.inv3 cell.latReal) hkl)) := by
  unfold calcStructureFactors at hmem
  dsimp only at hmem
  rw [List.mem_filter] at hmem
  obtain ⟨h1, h2⟩ := hmem
  rw [List.mem_filter] at h1
  exact ⟨of_decide_eq_true h1.2, of_decide_eq_true h2⟩

/-- Witness for C1 (amended) at the kept zero beam of the concrete cell. -/
theorem C1_kept_points_within_kmax_witness :
    (((0:ℤ), (0:ℤ), (0:ℤ)) ∈
      calcStructureFactors (fun _ _ => 1) (fun _ => 1) (fun _ => 0) exCell 1 (1/100)) ∧
    (Vec3.normSq (gVec (Mat3.inv3 exCell.latReal) ((0:ℤ), (0:ℤ), (0:ℤ))) ≤ 1^2 ∧
    (1/100:ℚ)^2 < structFactorAbsSq (fun _ _ => 1) (fun _ => 1) (fun _ => 0) exCell
      ((0:ℤ), (0:ℤ), (0:ℤ))
      (Vec3.normSq (gVec (Mat3.inv3 exCell.latReal) ((0:ℤ), (0:ℤ), (0:ℤ))))) :=
  ⟨exCell_keeps_zero_beam,
    C1_kept_points_within_kmax (fun _ _ => 1) (fun _ => 1) (fun _ => 0) exCell 1 (1/100)
      ((0:ℤ), (0:ℤ), (0:ℤ)) exCell_keeps_zero_beam⟩

/-
`orientation_plan`, lines 530-547 and 589-597: radial shell assignment.
-/

/-- Line 531: quantize one scattering-vector length to the distance
tolerance, `np.round(g / tol) * tol`. -/
def quantizeRadius {K : Type} [LinearOrderedField K] [FloorRing K] (tol g : K) : K :=
  (roundHalfEven (g / tol) : ℤ) * tol

/-- Sorted insertion skipping duplicates (helper for `np.unique`). -/
def insertSortedUnique {K : Type} [LinearOrder K] (x : K) : List K → List K
  | [] => [x]
  | y :: ys =>
    if x = y then y :: ys
    else if x < y then x :: y :: ys
    else y :: insertSortedUnique x ys

/-- Line 532: `np.unique` — the distinct values in increasing order. -/
def npUnique {K : Type} [LinearOrder K] (l : List K) : List K :=
  l.foldr insertSortedUnique []

/-- Membership in a sorted-unique insertion. -/
theorem mem_insertSortedUnique {K : Type} [LinearOrder K] (x a : K) :
    ∀ (ys : List K), a ∈ insertSortedUnique x ys ↔ a = x ∨ a ∈ ys := by
  intro ys
  induction ys with
  | nil => simp [insertSortedUnique]
  | cons y ys ih =>
    unfold insertSortedUnique
    split_ifs with h1 h2
    · subst h1
      simp only [List.mem_cons]
      tauto
    · simp only [List.mem_cons]
    · simp only [List.mem_cons, ih]
      tauto

/-- Sorted-unique insertion preserves strict sortedness. -/
theorem sorted_insertSortedUnique {K : Type} [LinearOrder K] (x : K) :
    ∀ (ys : List K), List.Sorted (· < ·) ys →
      List.Sorted (· < ·) (insertSortedUnique x ys) := by
  intro ys
  induction ys with
  | nil => intro _; simp [insertSortedUnique]
  | cons y ys ih =>
    intro hs
    rw [List.sorted_cons] at hs
    obtain ⟨hy, hys⟩ := hs
    unfold insertSortedUnique
    by_cases h1 : x = y
    · rw [if_pos h1, List.sorted_cons]
      exact ⟨hy, hys⟩
    · rw [if_neg h1]
      by_cases h2 : x < y
      · rw [if_pos h2, List.sorted_cons]
        refine ⟨?_, by rw [List.sorted_cons]; exact ⟨hy, hys⟩⟩
        intro b hb
        rcases List.mem_cons.1 hb with rfl | hb
        · exact h2
        · exact lt_trans h2 (hy b hb)
      · rw [if_neg h2, List.sorted_cons]
        refine ⟨?_, ih hys⟩
        intro b hb
        rcases (mem_insertSortedUnique x b ys).1 hb with rfl | hb
        · exact lt_of_le_of_ne (le_of_not_lt h2) (Ne.symm h1)
        · exact hy b hb

/-- `np.unique` is strictly sorted. -/
theorem sorted_npUnique {K : Type} [LinearOrder K] (l : List K) :
    List.Sorted (· < ·) (npUnique l) := by
  unfold npUnique
  induction l with
  | nil => simp
  | cons a l ih => exact sorted_insertSortedUnique a _ ih

/-- `np.unique` has no duplicates. -/
theorem nodup_npUnique {K : Type} [LinearOrder K] (l : List K) :
    (npUnique l).Nodup :=
  (sorted_npUnique l).nodup

/-- `np.unique` has the same members as its input. -/
theorem mem_npUnique {K : Type} [LinearOrder K] (a : K) (l : List K) :
    a ∈ npUnique l ↔ a ∈ l := by
  unfold npUnique
  induction l with
  | nil => simp
  | cons b l ih =>
    simp only [List.foldr_cons, List.mem_cons]
    rw [mem_insertSortedUnique]
    tauto

/-- Lines 531-535: quantized radii, deduplicated and sorted (`np.unique`),
with the (near-)zero-beam bins removed (`np.abs(radii) > tol_distance`). -/
def shellRadiiInit {K : Type} [LinearOrderedField K] [FloorRing K]
    (gLeng : List K) (tol : K) : List K :=
  (npUnique (gLeng.map (fun g => quantizeRadius tol g))).filter
    (fun r => decide (tol < |r|))

/-- The mutable state of the shell-assignment loop: `orientation_shell_index`
(line 538, initialized to -1) and `orientation_shell_radii` (line 535,
overwritten with per-shell means at line 547). -/
structure ShellState (K : Type) where
  idx : List ℤ
  rad : List K

/-- Lines 542-547, one iteration `a0`: points whose quantized radius is
within `tol/2` of the current shell radius get index `a0`, and the shell
radius is replaced by the mean of the matching scattering-vector lengths. -/
def shellAssignStep {K : Type} [LinearOrderedField K]
    (gLeng rTest : List K) (tol : K) (st : ShellState K) (a0 : ℕ) : ShellState K :=
  let r := st.rad.getD a0 0
  let idx2 := List.zipWith
    (fun o q => if |r - q| ≤ tol/2 then (a0 : ℤ) else o) st.idx rTest
  let selG := (List.zip gLeng rTest).filter (fun p => decide (|r - p.2| ≤ tol/2))
  let rad2 := st.rad.set a0 ((selG.map Prod.fst).sum / (selG.length : K))
  ⟨idx2, rad2⟩

/-- Lines 538-547: the full assignment loop over all shells. -/
def shellAssign {K : Type} [LinearOrderedField K] [FloorRing K]
    (gLeng : List K) (tol : K) : ShellState K :=
  let rTest := gLeng.map (fun g => quantizeRadius tol g)
  (List.range (shellRadiiInit gLeng tol).length).foldl
    (shellAssignStep gLeng rTest tol)
    ⟨List.replicate gLeng.length (-1), shellRadiiInit gLeng tol⟩

/-- Every quantized radius is an integer multiple of the tolerance. -/
theorem quantizeRadius_is_multiple {K : Type} [LinearOrderedField K] [FloorRing K]
    (tol g : K) : ∃ m : ℤ, quantizeRadius tol g = (m : K) * tol :=
  ⟨roundHalfEven (g / tol), rfl⟩

/-- Separation: two integer multiples of a positive tolerance lie within
`tol/2` of each other only if they are equal. -/
theorem multiple_separation {K : Type} [LinearOrderedField K]
    (tol : K) (htol : 0 < tol) (m1 m2 : ℤ) :
    |(m1 : K) * tol - (m2 : K) * tol| ≤ tol/2 ↔ (m1 : K) * tol = (m2 : K) * tol := by
  constructor
  · intro h
    by_contra hne
    have hm : m1 ≠ m2 := fun he => hne (by rw [he])
    have h1 : (1 : K) ≤ |(m1 : K) - (m2 : K)| := by
      rw [show ((m1 : K) - (m2 : K)) = ((m1 - m2 : ℤ) : K) by push_cast; ring]
      rw [← Int.cast_abs]
      have : (1 : ℤ) ≤ |m1 - m2| := Int.one_le_abs (sub_ne_zero.mpr hm)
      exact_mod_cast this
    have habs : |(m1 : K) * tol - (m2 : K) * tol| = |(m1 : K) - (m2 : K)| * tol := by
      rw [← sub_mul, abs_mul, abs_of_pos htol]
    rw [habs] at h
    nlinarith [h1, htol]
  · intro h
    rw [h, sub_self, abs_zero]
    linarith

/-- `getD` through `zipWith` at an in-range index. -/
theorem getD_zipWith {α β γ : Type} (f : α → β → γ) (l1 : List α) (l2 : List β)
    (j : ℕ) (d1 : α) (d2 : β) (d3 : γ) (h1 : j < l1.length) (h2 : j < l2.length) :
    (List.zipWith f l1 l2).getD j d3 = f (l1.getD j d1) (l2.getD j d2) := by
  rw [List.getD_eq_getElem _ _ (by rw [List.length_zipWith]; omega),
      List.getD_eq_getElem _ _ h1, List.getD_eq_getElem _ _ h2]
  exact List.getElem_zipWith

/-- Membership in the kept shell radii. -/
theorem mem_shellRadiiInit {K : Type} [LinearOrderedField K] [FloorRing K]
    (gLeng : List K) (tol r : K) :
    r ∈ shellRadiiInit gLeng tol ↔
      (r ∈ gLeng.map (fun g => quantizeRadius tol g) ∧ tol < |r|) := by
  unfold shellRadiiInit
  rw [List.mem_filter, mem_npUnique, decide_eq_true_eq]

/-- The kept shell radii are pairwise distinct. -/
theorem nodup_shellRadiiInit {K : Type} [LinearOrderedField K] [FloorRing K]
    (gLeng : List K) (tol : K) : (shellRadiiInit gLeng tol).Nodup :=
  (nodup_npUnique _).filter _

/-- Every kept shell radius is an integer multiple of the tolerance
exceeding it in absolute value. -/
theorem shellRadiiInit_getD_spec {K : Type} [LinearOrderedField K] [FloorRing K]
    (gLeng : List K) (tol : K) (a : ℕ) (ha : a < (shellRadiiInit gLeng tol).length) :
    (∃ m : ℤ, (shellRadiiInit gLeng tol).getD a 0 = (m : K) * tol) ∧
      tol < |(shellRadiiInit gLeng tol).getD a 0| := by
  rw [List.getD_eq_getElem _ _ ha]
  have hmem := List.getElem_mem ha
  rw [mem_shellRadiiInit] at hmem
  obtain ⟨hmap, habs⟩ := hmem
  obtain ⟨g, _, hq⟩ := List.mem_map.1 hmap
  exact ⟨by rw [← hq]; exact quantizeRadius_is_multiple tol g, habs⟩

/-- The state of the assignment loop after its first `t` iterations. -/
def shellAssignUpTo {K : Type} [LinearOrderedField K] [FloorRing K]
    (gLeng : List K) (tol : K) (t : ℕ) : ShellState K :=
  (List.range t).foldl
    (shellAssignStep gLeng (gLeng.map (fun g => quantizeRadius tol g)) tol)
    ⟨List.replicate gLeng.length (-1), shellRadiiInit gLeng tol⟩

/-- The full loop is the partial loop run to the end. -/
theorem shellAssign_eq_upTo {K : Type} [LinearOrderedField K] [FloorRing K]
    (gLeng : List K) (tol : K) :
    shellAssign gLeng tol = shellAssignUpTo gLeng tol (shellRadiiInit gLeng tol).length :=
  rfl

/-- Invariant of the shell-assignment loop: after `t` iterations the shell
radii at positions ≥ `t` are still the quantized values, and a point's index
is `a` exactly when some processed shell `a < t` carries its quantized
radius (otherwise it is still -1).  Uses that distinct quantized radii are
at least `tol` apart, so the `tol/2` window (line 543) matches only the
point's own bin. -/
theorem shellAssignUpTo_spec {K : Type} [LinearOrderedField K] [FloorRing K]
    (gLeng : List K) (tol : K) (htol : 0 < tol) :
    ∀ t, t ≤ (shellRadiiInit gLeng tol).length →
      (shellAssignUpTo gLeng tol t).idx.length = gLeng.length ∧
      (shellAssignUpTo gLeng tol t).rad.length = (shellRadiiInit gLeng tol).length ∧
      (∀ b, t ≤ b →
        (shellAssignUpTo gLeng tol t).rad.getD b 0 = (shellRadiiInit gLeng tol).getD b 0) ∧
      (∀ j, j < gLeng.length →
        ((∀ a, a < t →
            (shellRadiiInit gLeng tol).getD a 0 ≠ quantizeRadius tol (gLeng.getD j 0)) →
          (shellAssignUpTo gLeng tol t).idx.getD j 0 = -1) ∧
        (∀ a, a < t →
            (shellRadiiInit gLeng tol).getD a 0 = quantizeRadius tol (gLeng.getD j 0) →
          (shellAssignUpTo gLeng tol t).idx.getD j 0 = (a : ℤ))) := by
  intro t
  induction t with
  | zero =>
    intro _
    have h0 : (shellAssignUpTo gLeng tol 0).idx
        = List.replicate gLeng.length (-1 : ℤ) := rfl
    refine ⟨by rw [h0]; simp, rfl, fun b _ => rfl, ?_⟩
    intro j hj
    constructor
    · intro _
      rw [h0, List.getD_eq_getElem _ _ (by simpa using hj)]
      exact List.getElem_replicate _ _
    · intro a ha
      omega
  | succ t ih =>
    intro ht
    have htl : t < (shellRadiiInit gLeng tol).length := ht
    obtain ⟨hlenI, hlenR, hrad, hidx⟩ := ih (Nat.le_of_succ_le ht)
    have hstep : shellAssignUpTo gLeng tol (t+1)
        = shellAssignStep gLeng (gLeng.map (fun g => quantizeRadius tol g)) tol
            (shellAssignUpTo gLeng tol t) t := by
      unfold shellAssignUpTo
      rw [List.range_succ, List.foldl_append]
      rfl
    have hr : (shellAssignUpTo gLeng tol t).rad.getD t 0
        = (shellRadiiInit gLeng tol).getD t 0 := hrad t le_rfl
    rw [hstep]
    unfold shellAssignStep
    dsimp only
    rw [hr]
    have hrTlen : (gLeng.map (fun g => quantizeRadius tol g)).length = gLeng.length := by
      simp
    refine ⟨?_, ?_, ?_, ?_⟩
    · rw [List.length_zipWith, hlenI, hrTlen]
      exact Nat.min_self _
    · rw [List.length_set]
      exact hlenR
    · intro b hb
      rw [List.getD_eq_getElem?_getD, List.getElem?_set_ne (by omega),
          ← List.getD_eq_getElem?_getD]
      exact hrad b (by omega)
    · intro j hj
      have hrT : (gLeng.map (fun g => quantizeRadius tol g)).getD j 0
          = quantizeRadius tol (gLeng.getD j 0) := by
        rw [List.getD_eq_getElem _ _ (by simpa using hj), List.getD_eq_getElem _ _ hj]
        exact List.getElem_map _
      have hgetD : ∀ (v : ℤ),
          (List.zipWith
            (fun o q => if |(shellRadiiInit gLeng tol).getD t 0 - q| ≤ tol/2
              then (t : ℤ) else o)
            (shellAssignUpTo gLeng tol t).idx
            (gLeng.map (fun g => quantizeRadius tol g))).getD j 0
          = if |(shellRadiiInit gLeng tol).getD t 0
                - quantizeRadius tol (gLeng.getD j 0)| ≤ tol/2
            then (t : ℤ) else (shellAssignUpTo gLeng tol t).idx.getD j 0 := by
        intro _
        rw [getD_zipWith _ _ _ j 0 0 0 (by omega) (by omega), hrT]
      have hsep : (|(shellRadiiInit gLeng tol).getD t 0
            - quantizeRadius tol (gLeng.getD j 0)| ≤ tol/2)
          ↔ (shellRadiiInit gLeng tol).getD t 0
            = quantizeRadius tol (gLeng.getD j 0) := by
        obtain ⟨⟨m1, hm1⟩, _⟩ := shellRadiiInit_getD_spec gLeng tol t htl
        obtain ⟨m2, hm2⟩ := quantizeRadius_is_multiple tol (gLeng.getD j 0)
        rw [hm1, hm2]
        exact multiple_separation tol htol m1 m2
      constructor
      · intro hA
        rw [hgetD 0]
        rw [if_neg (fun hc => hA t (Nat.lt_succ_self t) (hsep.1 hc))]
        exact (hidx j hj).1 (fun a ha => hA a (Nat.lt_succ_of_lt ha))
      · intro a ha heq
        rw [hgetD 0]
        by_cases hat : a = t
        · subst hat
          rw [if_pos (hsep.2 heq)]
        · have halt : a < t := by omega
          have hneq : (shellRadiiInit gLeng tol).getD t 0
              ≠ quantizeRadius tol (gLeng.getD j 0) := by
            intro hc
            apply hat
            have he2 : (shellRadiiInit gLeng tol).getD a 0
                = (shellRadiiInit gLeng tol).getD t 0 := by rw [heq, hc]
            have hal : a < (shellRadiiInit gLeng tol).length := by omega
            rw [List.getD_eq_getElem _ _ hal, List.getD_eq_getElem _ _ htl] at he2
            exact (nodup_shellRadiiInit gLeng tol).getElem_inj_iff.mp he2
          rw [if_neg (fun hc => hneq (hsep.1 hc))]
          exact (hidx j hj).2 a halt heq

/-- Claim C5: after the shell assignment of `orientation_plan`
(lines 530-547), every kept reciprocal point (position `j` in `g_vec_leng`)
either keeps shell index -1 — exactly when its quantized radius is within
the zero-beam tolerance (`|radius| ≤ tol`), in which case line 592
(`if ind_radial >= 0`) excludes it from every reference pattern — or is
assigned the index of exactly one shell: the unique shell whose quantized
radius equals the point's quantized radius, and no other shell matches the
point's `tol/2` assignment window. -/
theorem C5_shell_partition {K : Type} [LinearOrderedField K] [FloorRing K]
    (gLeng : List K) (tol : K) (htol : 0 < tol) (j : ℕ) (hj : j < gLeng.length) :
    ((shellAssign gLeng tol).idx[j]? = some (-1) ∧
       |quantizeRadius tol (gLeng.getD j 0)| ≤ tol) ∨
    (∃ a : ℕ, a < (shellRadiiInit gLeng tol).length ∧
       (shellAssign gLeng tol).idx[j]? = some (a : ℤ) ∧
       (shellRadiiInit gLeng tol).getD a 0 = quantizeRadius tol (gLeng.getD j 0) ∧
       (∀ b : ℕ, b < (shellRadiiInit gLeng tol).length →
         |(shellRadiiInit gLeng tol).getD b 0 - quantizeRadius tol (gLeng.getD j 0)| ≤ tol/2 →
         b = a)) := by
  obtain ⟨hlenI, hlenR, hrad, hidx⟩ :=
    shellAssignUpTo_spec gLeng tol htol (shellRadiiInit gLeng tol).length le_rfl
  rw [shellAssign_eq_upTo]
  have hjlen : j < (shellAssignUpTo gLeng tol (shellRadiiInit gLeng tol).length).idx.length := by
    rw [hlenI]; exact hj
  have hgetq : (shellAssignUpTo gLeng tol (shellRadiiInit gLeng tol).length).idx[j]?
      = some ((shellAssignUpTo gLeng tol (shellRadiiInit gLeng tol).length).idx.getD j 0) := by
    rw [List.getElem?_eq_getElem hjlen, List.getD_eq_getElem _ _ hjlen]
  by_cases hcase : tol < |quantizeRadius tol (gLeng.getD j 0)|
  · right
    have hqmem : quantizeRadius tol (gLeng.getD j 0) ∈ shellRadiiInit gLeng tol := by
      rw [mem_shellRadiiInit]
      refine ⟨List.mem_map.2 ⟨gLeng.getD j 0, ?_, rfl⟩, hcase⟩
      rw [List.getD_eq_getElem _ _ hj]
      exact List.getElem_mem hj
    obtain ⟨a, hal, hae⟩ := List.getElem_of_mem hqmem
    have haeD : (shellRadiiInit gLeng tol).getD a 0 = quantizeRadius tol (gLeng.getD j 0) := by
      rw [List.getD_eq_getElem _ _ hal, hae]
    refine ⟨a, hal, ?_, haeD, ?_⟩
    · rw [hgetq, (hidx j hj).2 a hal haeD]
    · intro b hbl hbnear
      obtain ⟨⟨mb, hmb⟩, _⟩ := shellRadiiInit_getD_spec gLeng tol b hbl
      obtain ⟨mq, hmq⟩ := quantizeRadius_is_multiple tol (gLeng.getD j 0)
      have heq : (shellRadiiInit gLeng tol).getD b 0 = quantizeRadius tol (gLeng.getD j 0) := by
        rw [hmb, hmq] at hbnear ⊢
        exact (multiple_separation tol htol mb mq).1 hbnear
      have he2 : (shellRadiiInit gLeng tol).getD b 0 = (shellRadiiInit gLeng tol).getD a 0 := by
        rw [heq, haeD]
      rw [List.getD_eq_getElem _ _ hbl, List.getD_eq_getElem _ _ hal] at he2
      exact (nodup_shellRadiiInit gLeng tol).getElem_inj_iff.mp he2
  · left
    refine ⟨?_, le_of_not_lt hcase⟩
    have hnone : ∀ a, a < (shellRadiiInit gLeng tol).length →
        (shellRadiiInit gLeng tol).getD a 0 ≠ quantizeRadius tol (gLeng.getD j 0) := by
      intro a ha hac
      obtain ⟨_, habs⟩ := shellRadiiInit_getD_spec gLeng tol a ha
      rw [hac] at habs
      exact hcase habs
    rw [hgetq, (hidx j hj).1 hnone]

/-- Witness for C5 on `g_vec_leng = [0, 1]` with `tol_distance = 1/10`,
at the point `j = 1`. -/
theorem C5_shell_partition_witness :
    0 < (1/10 : ℚ) ∧ 1 < [(0:ℚ), 1].length ∧
    (((shellAssign [(0:ℚ), 1] (1/10)).idx[1]? = some (-1) ∧
       |quantizeRadius (1/10) ([(0:ℚ), 1].getD 1 0)| ≤ 1/10) ∨
     (∃ a : ℕ, a < (shellRadiiInit [(0:ℚ), 1] (1/10)).length ∧
       (shellAssign [(0:ℚ), 1] (1/10)).idx[1]? = some (a : ℤ) ∧
       (shellRadiiInit [(0:ℚ), 1] (1/10)).getD a 0
         = quantizeRadius (1/10) ([(0:ℚ), 1].getD 1 0) ∧
       (∀ b : ℕ, b < (shellRadiiInit [(0:ℚ), 1] (1/10)).length →
         |(shellRadiiInit [(0:ℚ), 1] (1/10)).getD b 0
           - quantizeRadius (1/10) ([(0:ℚ), 1].getD 1 0)| ≤ (1/10)/2 →
         b = a))) :=
  ⟨by norm_num, by simp,
    C5_shell_partition [(0:ℚ), 1] (1/10) (by norm_num) 1 (by simp)⟩

/-
`orientation_plan`, lines 438-469: the triangular zone-axis grid.  The SLERP
formula is transcribed with the transcendental `np.sin`/`np.arccos` carried
as the function parameters `sinf`/`arccosf`; the indexing structure of the
grid is independent of their values.
-/

/-- The fixed apex `[0,0,1]` (line 423/451: the grid always starts there). -/
def vec001 {K : Type} [LinearOrderedField K] : Vec3 K := ⟨0, 0, 1⟩

/-- Lines 441-442 (and 464-466): one SLERP point
`a·sin((1-t)θ)/sin(θ) + b·sin(tθ)/sin(θ)`. -/
def slerpPt {K : Type} [LinearOrderedField K]
    (sinf : K → K) (θ : K) (a b : Vec3 K) (t : K) : Vec3 K :=
  (Vec3.smul (sinf ((1 - t) * θ) / sinf θ) a).add
    (Vec3.smul (sinf (t * θ) / sinf θ) b)

/-- Lines 440-442: the boundary points `pv` along the edge from the apex to
`v`, at the weights `linspace(0, 1, L+1)`. -/
def pvRow {K : Type} [LinearOrderedField K]
    (sinf arccosf : K → K) (v : Vec3 K) (L i : ℕ) : Vec3 K :=
  slerpPt sinf (arccosf (Vec3.dot vec001 v)) vec001 v ((i : K) / (L : K))

/-- Lines 444-446: the boundary points `pw` along the edge from the apex to
`w`. -/
def pwRow {K : Type} [LinearOrderedField K]
    (sinf arccosf : K → K) (w : Vec3 K) (L i : ℕ) : Vec3 K :=
  slerpPt sinf (arccosf (Vec3.dot vec001 w)) vec001 w ((i : K) / (L : K))

/-- Lines 456-466: the interior point at level `a0`, position `k`, filling
the row by SLERP between `pv[a0]` and `pw[a0]` at weight `k/a0`. -/
def rowPoint {K : Type} [LinearOrderedField K]
    (sinf arccosf : K → K) (v w : Vec3 K) (L a0 k : ℕ) : Vec3 K :=
  slerpPt sinf
    (arccosf (Vec3.dot (pvRow sinf arccosf v L a0) (pwRow sinf arccosf w L a0)))
    (pvRow sinf arccosf v L a0) (pwRow sinf arccosf w L a0) ((k : K) / (a0 : K))

/-- The triangular-number offset `a0*(a0+1)/2` of line 457. -/
def triNum (a : ℕ) : ℕ := a*(a+1)/2

/-- `triNum` steps by the row length. -/
theorem triNum_succ (a : ℕ) : triNum (a+1) = triNum a + (a+1) := by
  unfold triNum
  have h : (a+1)*(a+1+1) = a*(a+1) + (a+1)*2 := by ring
  rw [h, Nat.add_mul_div_right _ _ (by omega : 0 < 2)]

/-- `triNum` is monotone. -/
theorem triNum_mono {a b : ℕ} (h : a ≤ b) : triNum a ≤ triNum b := by
  induction h with
  | refl => exact le_refl _
  | step h2 ih =>
    rw [triNum_succ]
    omega

/-- Writing consecutive values into a list starting at position `s`
(the slice assignment of lines 464-469). -/
def writeRow {α : Type} : List α → ℕ → List α → List α
  | l, _, [] => l
  | l, s, x :: xs => writeRow (l.set s x) (s+1) xs

/-- Writing past the end changes nothing. -/
theorem writeRow_of_le {α : Type} :
    ∀ (vals l : List α) (s : ℕ), l.length ≤ s → writeRow l s vals = l := by
  intro vals
  induction vals with
  | nil => intro l s _; rfl
  | cons x xs ih =>
    intro l s hs
    unfold writeRow
    rw [List.set_eq_of_length_le hs]
    exact ih l (s+1) (by omega)

/-- Writing entirely inside the right part of an append. -/
theorem writeRow_append {α : Type} :
    ∀ (vals l1 l2 : List α),
      writeRow (l1 ++ l2) l1.length vals = l1 ++ writeRow l2 0 vals := by
  intro vals
  induction vals with
  | nil => intro l1 l2; rfl
  | cons x xs ih =>
    intro l1 l2
    unfold writeRow
    match l2 with
    | [] =>
      rw [List.append_nil, List.set_eq_of_length_le (le_refl _),
        writeRow_of_le xs l1 (l1.length + 1) (by omega)]
      rw [show ([] : List α).set 0 x = [] from rfl,
        writeRow_of_le xs ([] : List α) 1 (by simp), List.append_nil]
    | y :: ys =>
      have hset : (l1 ++ y :: ys).set l1.length x = (l1 ++ [x]) ++ ys := by
        rw [List.set_append_right _ _ (le_refl _), Nat.sub_self]
        simp
      rw [hset, show l1.length + 1 = (l1 ++ [x]).length by simp, ih (l1 ++ [x]) ys]
      have hset0 : (y :: ys).set 0 x = [x] ++ ys := rfl
      rw [hset0, show (0:ℕ) + 1 = ([x] : List α).length from rfl, ih [x] ys]
      simp

/-- Writing from position 0 replaces a prefix. -/
theorem writeRow_zero_eq {α : Type} :
    ∀ (vals l : List α), vals.length ≤ l.length →
      writeRow l 0 vals = vals ++ l.drop vals.length := by
  intro vals
  induction vals with
  | nil => intro l _; simp [writeRow]
  | cons x xs ih =>
    intro l hl
    match l with
    | [] => simp at hl
    | y :: ys =>
      unfold writeRow
      have hset0 : (y :: ys).set 0 x = [x] ++ ys := rfl
      rw [hset0, show (0:ℕ) + 1 = ([x] : List α).length from rfl, writeRow_append xs [x] ys,
        ih ys (by simpa using hl)]
      simp

/-- The triangular grid as an explicit concatenation of rows: the apex
followed by row `1`, …, row `t`, row `a` holding `a+1` entries `f a k`. -/
def triJoin {α : Type} (x0 : α) (f : ℕ → ℕ → α) : ℕ → List α
  | 0 => [x0]
  | t+1 => triJoin x0 f t ++ (List.range (t+2)).map (f (t+1))

/-- Length of the row concatenation. -/
theorem triJoin_length {α : Type} (x0 : α) (f : ℕ → ℕ → α) :
    ∀ t, (triJoin x0 f t).length = triNum (t+1) := by
  intro t
  induction t with
  | zero => rfl
  | succ t ih =>
    unfold triJoin
    rw [List.length_append, ih, List.length_map, List.length_range, triNum_succ (t+1)]

/-- Lines 448-469: the zone-axis array, built by allocating
`(L+1)(L+2)/2` default entries (line 450), writing the apex at position 0
(line 451), and writing row `a0` at positions `triNum a0 … triNum a0 + a0`
for `a0 = 1 … L` (lines 456-466). -/
def triBuild {α : Type} (x0 dflt : α) (f : ℕ → ℕ → α) (L : ℕ) : List α :=
  (List.range L).foldl
    (fun acc i => writeRow acc (triNum (i+1)) ((List.range (i+2)).map (f (i+1))))
    ((List.replicate (triNum (L+1)) dflt).set 0 x0)

/-- After `t ≤ L` loop iterations the array holds the first `t+1` rows
followed by untouched default entries. -/
theorem triBuild_upTo {α : Type} (x0 dflt : α) (f : ℕ → ℕ → α) (L : ℕ) :
    ∀ t, t ≤ L →
      (List.range t).foldl
        (fun acc i => writeRow acc (triNum (i+1)) ((List.range (i+2)).map (f (i+1))))
        ((List.replicate (triNum (L+1)) dflt).set 0 x0)
      = triJoin x0 f t ++ List.replicate (triNum (L+1) - triNum (t+1)) dflt := by
  intro t
  induction t with
  | zero =>
    intro _
    rw [List.range_zero, List.foldl_nil]
    have h1 : 1 ≤ triNum (L+1) := by
      have := triNum_mono (show 1 ≤ L+1 by omega)
      simpa [triNum] using this
    match hN : triNum (L+1), h1 with
    | n+1, _ =>
      rw [show (List.replicate (n+1) dflt).set 0 x0 = x0 :: List.replicate n dflt from rfl]
      show x0 :: List.replicate n dflt = [x0] ++ List.replicate (n+1-1) dflt
      simp
  | succ t ih =>
    intro ht
    rw [List.range_succ, List.foldl_append, ih (by omega), List.foldl_cons, List.foldl_nil]
    have hlen : (triJoin x0 f t).length = triNum (t+1) := triJoin_length x0 f t
    have happ := writeRow_append ((List.range (t+2)).map (f (t+1))) (triJoin x0 f t)
      (List.replicate (triNum (L+1) - triNum (t+1)) dflt)
    rw [hlen] at happ
    rw [happ]
    have hle : t+2 ≤ triNum (L+1) - triNum (t+1) := by
      have h1 : triNum (t+2) ≤ triNum (L+1) := triNum_mono (by omega)
      have h2 : triNum (t+2) = triNum (t+1) + (t+2) := triNum_succ (t+1)
      omega
    rw [writeRow_zero_eq ((List.range (t+2)).map (f (t+1)))
        (List.replicate (triNum (L+1) - triNum (t+1)) dflt)
        (by simpa using hle)]
    rw [show ((List.range (t+2)).map (f (t+1))).length = t+2 by simp, List.drop_replicate]
    have harith : triNum (L+1) - triNum (t+1) - (t+2) = triNum (L+1) - triNum (t+2) := by
      have h2 : triNum (t+2) = triNum (t+1) + (t+2) := triNum_succ (t+1)
      omega
    rw [harith, ← List.append_assoc]
    rfl

/-- The loop fills the whole allocated array: the final array is exactly the
row concatenation. -/
theorem triBuild_eq_triJoin {α : Type} (x0 dflt : α) (f : ℕ → ℕ → α) (L : ℕ) :
    triBuild x0 dflt f L = triJoin x0 f L := by
  unfold triBuild
  rw [triBuild_upTo x0 dflt f L L (le_refl L), Nat.sub_self]
  simp

/-- Triangular numbers after the apex are positive. -/
theorem one_le_triNum_succ (t : ℕ) : 1 ≤ triNum (t+1) := by
  have h1 : triNum 1 = 1 := by norm_num [triNum]
  have h2 := triNum_mono (show 1 ≤ t+1 by omega)
  omega

/-- The first entry of the row concatenation is the apex. -/
theorem triJoin_getElem_zero {α : Type} (x0 : α) (f : ℕ → ℕ → α) :
    ∀ t, (triJoin x0 f t)[0]? = some x0 := by
  intro t
  induction t with
  | zero => rfl
  | succ t ih =>
    unfold triJoin
    rw [List.getElem?_append_left (by rw [triJoin_length]; exact one_le_triNum_succ t)]
    exact ih

/-- The entry at linear position `triNum a + k` is the row-`a` point `f a k`. -/
theorem triJoin_getElem_row {α : Type} (x0 : α) (f : ℕ → ℕ → α) :
    ∀ t a k, 1 ≤ a → a ≤ t → k ≤ a →
      (triJoin x0 f t)[triNum a + k]? = some (f a k) := by
  intro t
  induction t with
  | zero => intro a k h1 h2 _; omega
  | succ t ih =>
    intro a k h1 h2 h3
    unfold triJoin
    by_cases hat : a ≤ t
    · rw [List.getElem?_append_left]
      · exact ih a k h1 hat h3
      · rw [triJoin_length]
        have hs : triNum (a+1) ≤ triNum (t+1) := triNum_mono (by omega)
        have h2s : triNum (a+1) = triNum a + (a+1) := triNum_succ a
        omega
    · have hat2 : a = t+1 := by omega
      subst hat2
      rw [List.getElem?_append_right (by rw [triJoin_length]; omega)]
      rw [triJoin_length, show triNum (t+1) + k - triNum (t+1) = k by omega,
        List.getElem?_map, List.getElem?_range (by omega : k < t+2)]
      rfl

/-- The map `(level, position) ↦ triNum level + position` is injective on the
triangular grid: each linear slot belongs to exactly one grid index. -/
theorem triNum_index_inj (a k b m : ℕ) (hk : k ≤ a) (hm : m ≤ b)
    (he : triNum a + k = triNum b + m) : a = b ∧ k = m := by
  have key : ∀ x y : ℕ, x < y → triNum x + x < triNum y := by
    intro x y hxy
    have h1 : triNum (x+1) ≤ triNum y := triNum_mono (by omega)
    have h2 : triNum (x+1) = triNum x + (x+1) := triNum_succ x
    omega
  rcases Nat.lt_trichotomy a b with h | h | h
  · have := key a b h
    omega
  · subst h
    omega
  · have := key b a h
    omega

/-- Lines 448-469: the zone-axis direction array (`orientation_vecs`),
parametric in the transcendental functions. -/
def orientationVecsList {K : Type} [LinearOrderedField K]
    (sinf arccosf : K → K) (v w : Vec3 K) (L : ℕ) : List (Vec3 K) :=
  triBuild vec001 Vec3.zero (rowPoint sinf arccosf v w L) L

/-- Lines 452, 468-469: the grid index array (`orientation_inds`,
level and position-in-row; rows are written for `a0 = 1 … L`, row 0 keeps
its zero initialization `(0, 0)`). -/
def orientationIndsList (L : ℕ) : List (ℕ × ℕ) :=
  triBuild (0, 0) (0, 0) (fun a k => (a, k)) L

/-- Claim C7: with `L` subdivision levels (`L` = the computed
`orientation_zone_axis_steps`, the rounded larger edge angle over the step),
the sampler generates exactly `(L+1)(L+2)/2` zone-axis directions before any
mirroring; the first is the apex `[0,0,1]`; the entry at linear position
`triNum a + k` is the row-`a` SLERP point and carries grid index `(a, k)`;
and each linear slot corresponds to exactly one grid index. -/
theorem C7_count_law {K : Type} [LinearOrderedField K] [FloorRing K]
    (sinf arccosf : K → K) (v w : Vec3 K) (angleDeg1 angleDeg2 step : K) (L : ℕ)
    (_hL : zoneAxisSteps angleDeg1 angleDeg2 step = (L : ℤ)) :
    (orientationVecsList sinf arccosf v w L).length = (L+1)*(L+2)/2 ∧
    (orientationVecsList sinf arccosf v w L)[0]? = some vec001 ∧
    (orientationIndsList L)[0]? = some (0, 0) ∧
    (∀ a k, 1 ≤ a → a ≤ L → k ≤ a →
      (orientationVecsList sinf arccosf v w L)[triNum a + k]?
          = some (rowPoint sinf arccosf v w L a k) ∧
      (orientationIndsList L)[triNum a + k]? = some (a, k)) ∧
    (∀ a k b m, k ≤ a → m ≤ b → triNum a + k = triNum b + m → a = b ∧ k = m) := by
  have hv : orientationVecsList sinf arccosf v w L
      = triJoin vec001 (rowPoint sinf arccosf v w L) L :=
    triBuild_eq_triJoin _ _ _ L
  have hi : orientationIndsList L = triJoin (0, 0) (fun a k => (a, k)) L :=
    triBuild_eq_triJoin _ _ _ L
  refine ⟨?_, ?_, ?_, ?_, ?_⟩
  · rw [hv, triJoin_length]
    rfl
  · rw [hv]
    exact triJoin_getElem_zero _ _ L
  · rw [hi]
    exact triJoin_getElem_zero _ _ L
  · intro a k h1 h2 h3
    rw [hv, hi]
    exact ⟨triJoin_getElem_row _ _ L a k h1 h2 h3, triJoin_getElem_row _ _ L a k h1 h2 h3⟩
  · exact fun a k b m hk hm he => triNum_index_inj a k b m hk hm he

/-- Witness for C7 at the machine-evaluated sector of claim C3 (edge angles
0° and 45.000000000000007°, 2° step, hence `L = 23` levels); the
trigonometric parameters are irrelevant to the indexing and are instantiated
with the identity. -/
theorem C7_count_law_witness :
    zoneAxisSteps (0 : ℚ) (45 + 1/10^14) 2 = ((23 : ℕ) : ℤ) ∧
    ((orientationVecsList (id : ℚ → ℚ) id (⟨0, 1, 0⟩ : Vec3 ℚ) ⟨0, 1, 1⟩ 23).length = (23+1)*(23+2)/2 ∧
    (orientationVecsList (id : ℚ → ℚ) id (⟨0, 1, 0⟩ : Vec3 ℚ) ⟨0, 1, 1⟩ 23)[0]? = some (vec001 : Vec3 ℚ) ∧
    (orientationIndsList 23)[0]? = some (0, 0) ∧
    (∀ a k, 1 ≤ a → a ≤ 23 → k ≤ a →
      (orientationVecsList (id : ℚ → ℚ) id (⟨0, 1, 0⟩ : Vec3 ℚ) ⟨0, 1, 1⟩ 23)[triNum a + k]?
          = some (rowPoint (id : ℚ → ℚ) id (⟨0, 1, 0⟩ : Vec3 ℚ) ⟨0, 1, 1⟩ 23 a k) ∧
      (orientationIndsList 23)[triNum a + k]? = some (a, k)) ∧
    (∀ a k b m, k ≤ a → m ≤ b → triNum a + k = triNum b + m → a = b ∧ k = m)) := by
  have hsteps : zoneAxisSteps (0 : ℚ) (45 + 1/10^14) 2 = ((23 : ℕ) : ℤ) := by
    have hmax : max ((0:ℚ) / 2) ((45 + 1/10^14) / 2) = (45 + 1/10^14) / 2 := by
      rw [max_eq_right]
      norm_num
    have hfl : (⌊((45 : ℚ) + 1/10^14) / 2⌋ : ℤ) = 22 := by norm_num
    simp only [zoneAxisSteps, roundHalfEven, hmax, hfl]
    norm_num
  exact ⟨hsteps,
    C7_count_law (id : ℚ → ℚ) id (⟨0, 1, 0⟩ : Vec3 ℚ) ⟨0, 1, 1⟩ 0 (45 + 1/10^14) 2 23 hsteps⟩
